import Mathlib

/-!
Verification of the `seed` selection-language parser.

The development shallowly embeds the parser from `src/parse.rs` and
`src/selection.rs`: the tokenizer `lex`, the token cursor, the primitive
matchers (`Comma`, `Period`, `Slash`, `Gt`, `Lt`, `Identifier`), the
`Punctuated` combinator, and the selection/selector grammar with its
raw-to-typed conversion.

A Rust parser takes `&mut TokenStream` and returns `Result<T, ParseError>`.
We embed it as a pure function `TokenStream → Except ParseError T × TokenStream`
whose second component is the final state of the caller's stream, so that the
"no consumption on failure" discipline is an actual theorem, not a typing
artifact.  A Rust panic (`unwrap`) is embedded as `Option.none`.
-/

namespace Seed

abbrev Token := String

abbrev TokenStream := List Token

/-- `ParseError` from `src/parse.rs`: a single kind carrying a message. -/
structure ParseError where
  message : String
deriving DecidableEq

def ParseError.new (message : String) : ParseError := ⟨message⟩

/-- `TokenStream::next`: pop the front token, or signal exhaustion. -/
def TokenStream.next (input : TokenStream) : Option (Token × TokenStream) :=
  match input with
  | [] => none
  | t :: rest => some (t, rest)

/-- `TokenStream::peek`. -/
def TokenStream.peek (input : TokenStream) : Option Token :=
  match input with
  | [] => none
  | t :: _ => some t

/-- `TokenStream::next_if`: consume the front token only if the predicate holds. -/
def TokenStream.nextIf (predicate : Token → Bool) (input : TokenStream) :
    Option (Token × TokenStream) :=
  match input with
  | [] => none
  | t :: rest => if predicate t then some (t, rest) else none

/-- The single-token matcher `Comma` (`src/parse.rs`). -/
structure Comma

def Comma.parse (input : TokenStream) : Except ParseError Comma × TokenStream :=
  match TokenStream.next input with
  | none => (.error (ParseError.new "expected comma, got nothing"), input)
  | some (t, tt) =>
    if t = "," then (.ok ⟨⟩, tt)
    else (.error (ParseError.new "expected comma, got something else"), input)

/-- The single-token matcher `Period` (`src/parse.rs`; its error strings also
say "comma", copied verbatim from the source). -/
structure Period

def Period.parse (input : TokenStream) : Except ParseError Period × TokenStream :=
  match TokenStream.next input with
  | none => (.error (ParseError.new "expected comma, got nothing"), input)
  | some (t, tt) =>
    if t = "." then (.ok ⟨⟩, tt)
    else (.error (ParseError.new "expected comma, got something else"), input)

/-- The single-token matcher `Slash` (`src/parse.rs`). -/
structure Slash

def Slash.parse (input : TokenStream) : Except ParseError Slash × TokenStream :=
  match TokenStream.next input with
  | none => (.error (ParseError.new "expected comma, got nothing"), input)
  | some (t, tt) =>
    if t = "/" then (.ok ⟨⟩, tt)
    else (.error (ParseError.new "expected comma, got something else"), input)

/-- The comparator matcher `Gt` (`src/parse.rs`): accepts `>` or `gt`. -/
structure Gt

def Gt.parse (input : TokenStream) : Except ParseError Gt × TokenStream :=
  match TokenStream.next input with
  | none => (.error (ParseError.new "expected >, got nothing"), input)
  | some (t, tt) =>
    if t = ">" ∨ t = "gt" then (.ok ⟨⟩, tt)
    else (.error (ParseError.new "expected >, got something else"), input)

/-- The comparator matcher `Lt` (`src/parse.rs`): accepts `<` or `lt`. -/
structure Lt

def Lt.parse (input : TokenStream) : Except ParseError Lt × TokenStream :=
  match TokenStream.next input with
  | none => (.error (ParseError.new "expected <, got nothing"), input)
  | some (t, tt) =>
    if t = "<" ∨ t = "lt" then (.ok ⟨⟩, tt)
    else (.error (ParseError.new "expected <, got something else"), input)

/-- `Identifier` (`src/parse.rs`): one token all of whose characters are
alphanumeric or underscore.  Rust's `char::is_alphanumeric` is Unicode-aware;
`Char.isAlphanum` is its ASCII restriction, the difference being irrelevant to
every property proved here. -/
structure Identifier where
  value : Token
deriving DecidableEq

def Identifier.parse (input : TokenStream) : Except ParseError Identifier × TokenStream :=
  match TokenStream.next input with
  | none => (.error (ParseError.new "expected identifier, got nothing"), input)
  | some (t, tt) =>
    if t.data.all (fun c => c.isAlphanum || c == '_') then (.ok ⟨t⟩, tt)
    else (.error (ParseError.new "expected identifier, got something else"), input)

/-- The loop body of `Punctuated::parse` (`src/parse.rs`): repeatedly attempt
the item parser `pT`, pushing successes; after each success attempt (and
discard) one delimiter with `pP`; stop at the first item failure, leaving the
stream wherever the failed item attempt left it.  The Rust loop is unbounded;
here it is driven by fuel, and `Punctuated.parse` supplies fuel strictly
greater than the stream length, which is never exhausted when the item parser
consumes at least one token per success — true of every parser in this
grammar. -/
def punctuatedLoop {α β : Type} (pP : TokenStream → Except ParseError β × TokenStream)
    (pT : TokenStream → Except ParseError α × TokenStream) :
    Nat → TokenStream → List α → List α × TokenStream
  | 0, tt, acc => (acc.reverse, tt)
  | fuel + 1, tt, acc =>
    match pT tt with
    | (.error _, ttErr) => (acc.reverse, ttErr)
    | (.ok t, tt2) => punctuatedLoop pP pT fuel (pP tt2).2 (t :: acc)

/-- `Punctuated::<P, T>::parse` (`src/parse.rs`): attempt one leading
delimiter (result discarded either way), then loop items with optional
trailing delimiters; always returns `Ok`. -/
def Punctuated.parse {α β : Type} (pP : TokenStream → Except ParseError β × TokenStream)
    (pT : TokenStream → Except ParseError α × TokenStream)
    (input : TokenStream) : Except ParseError (List α) × TokenStream :=
  let tt := (pP input).2
  let r := punctuatedLoop pP pT (tt.length + 1) tt []
  (.ok r.1, r.2)

/-- The raw selector form `ParseSelector` (`src/selection.rs`): one keyword
token plus the argument tokens that follow it. -/
structure ParseSelector where
  selector : Token
  args : List Token
deriving DecidableEq

/-- The argument-collection loop of `ParseSelector::parse`:
`while let Some(t) = tt.next_if(|t| t != "," && t != "/")`. -/
def collectArgs : TokenStream → List Token × TokenStream
  | [] => ([], [])
  | t :: rest =>
    if t != "," && t != "/" then
      let r := collectArgs rest
      (t :: r.1, r.2)
    else
      ([], t :: rest)

def ParseSelector.parse (input : TokenStream) : Except ParseError ParseSelector × TokenStream :=
  match TokenStream.next input with
  | none => (.error (ParseError.new "expected selector"), input)
  | some (selector, tt) =>
    if selector = "/" then
      (.error (ParseError.new "expected selector, got /"), input)
    else
      (.ok ⟨selector, (collectArgs tt).1⟩, (collectArgs tt).2)

/-- The raw clause form `ParseSelection` (`src/selection.rs`): one table-name
token plus a comma-separated raw selector list. -/
structure ParseSelection where
  table : Token
  selectors : List ParseSelector
deriving DecidableEq

def ParseSelection.parse (input : TokenStream) : Except ParseError ParseSelection × TokenStream :=
  match TokenStream.next input with
  | none => (.error (ParseError.new "expected table name"), input)
  | some (table, tt) =>
    match Punctuated.parse Comma.parse ParseSelector.parse tt with
    | (.ok selectors, tt2) => (.ok ⟨table, selectors⟩, tt2)
    | (.error e, _) => (.error e, input)

/-- The typed `Selector` (`src/selection.rs`). -/
inductive Selector where
  | id : String → Selector
  | rand : Nat → Selector
  | limit : Nat → Selector
  | latest : Nat → Selector
  | sort : String → Bool → Selector
  | expr : Selector
deriving DecidableEq

/-- Rust's `str::parse::<usize>` on a 64-bit target: an optional leading plus
sign followed by one or more ASCII digits, rejecting values of `2^64` or more;
`none` is a parse failure. -/
def parseUsize (s : String) : Option Nat :=
  let ds := match s.data with
    | '+' :: rest => rest
    | other => other
  if ds = [] then none
  else if ds.all (fun c => c.isDigit) then
    let n := ds.foldl (fun acc c => acc * 10 + (c.toNat - 48)) 0
    if n < 2 ^ 64 then some n else none
  else none

/-- `impl From<ParseSelector> for Selector` (`src/selection.rs`).  The source
calls `p.args[0].parse().unwrap()` for `rand`/`latest`/`limit`; the `unwrap`
panic on a malformed count (and the `args[0]` panic, unreachable because
emptiness is checked first) is embedded as `none`. -/
def Selector.fromParse (p : ParseSelector) : Option Selector :=
  match p.args with
  | [] => some (.id p.selector)
  | a0 :: rest =>
    if p.selector = "rand" then (parseUsize a0).map Selector.rand
    else if p.selector = "latest" then (parseUsize a0).map Selector.latest
    else if p.selector = "limit" then (parseUsize a0).map Selector.limit
    else if p.selector = "sort" then
      let direction := match rest with
        | [] => false
        | a1 :: _ => a1 == "desc"
      some (.sort a0 direction)
    else some .expr

/-- The typed `Selection` (`src/selection.rs`). -/
structure Selection where
  table : String
  selectors : List Selector
deriving DecidableEq

/-- `impl From<ParseSelection> for Selection`, lifted over the panic channel
of the selector conversions. -/
def Selection.fromParse (p : ParseSelection) : Option Selection :=
  (p.selectors.mapM Selector.fromParse).map (fun sels => ⟨p.table, sels⟩)

/-- Whether a character is one of the four delimiters of `lex`
(`src/parse.rs`). -/
def isDelimiter (c : Char) : Bool := c == '(' || c == ')' || c == ',' || c == '/'

/-- The per-string scan of `lex` (`src/parse.rs`): `pending` is the reversed
run of characters accumulated since the last flush (the source tracks the
same run as the byte range `last..i`).  At a delimiter, flush the pending run
if non-empty, then emit the delimiter as its own token; at end of string,
flush any trailing run. -/
def lexChars : List Char → List Char → List String
  | [], pending =>
    if pending.isEmpty then [] else [String.mk pending.reverse]
  | c :: rest, pending =>
    if isDelimiter c then
      (if pending.isEmpty then [] else [String.mk pending.reverse])
        ++ String.mk [c] :: lexChars rest []
    else
      lexChars rest (c :: pending)

/-- `lex` (`src/parse.rs`): tokenize each argument string in order and
concatenate the results. -/
def lex : List String → List String
  | [] => []
  | s :: rest => lexChars s.data [] ++ lex rest

/-- The parse performed by `main` (`src/main.rs`, the
`Punctuated::<Slash, ParseSelection>::parse` call) on the lexed arguments. -/
def parseSelections (args : List String) : Except ParseError (List ParseSelection) :=
  (Punctuated.parse Slash.parse ParseSelection.parse (lex args)).1

/-- The conversion of the raw parse result into typed `Selection`s performed
by `main` (`src/main.rs`), with the panic channel as `none`. -/
def toSelections (raw : List ParseSelection) : Option (List Selection) :=
  raw.mapM Selection.fromParse

/-! ### Characterizations of the primitive matchers -/

theorem comma_parse_nil :
    Comma.parse [] = (.error (ParseError.new "expected comma, got nothing"), []) := rfl

theorem comma_parse_cons (t : Token) (ts : TokenStream) :
    Comma.parse (t :: ts) = if t = "," then (.ok ⟨⟩, ts)
      else (.error (ParseError.new "expected comma, got something else"), t :: ts) := rfl

theorem period_parse_nil :
    Period.parse [] = (.error (ParseError.new "expected comma, got nothing"), []) := rfl

theorem period_parse_cons (t : Token) (ts : TokenStream) :
    Period.parse (t :: ts) = if t = "." then (.ok ⟨⟩, ts)
      else (.error (ParseError.new "expected comma, got something else"), t :: ts) := rfl

theorem slash_parse_nil :
    Slash.parse [] = (.error (ParseError.new "expected comma, got nothing"), []) := rfl

theorem slash_parse_cons (t : Token) (ts : TokenStream) :
    Slash.parse (t :: ts) = if t = "/" then (.ok ⟨⟩, ts)
      else (.error (ParseError.new "expected comma, got something else"), t :: ts) := rfl

theorem gt_parse_nil :
    Gt.parse [] = (.error (ParseError.new "expected >, got nothing"), []) := rfl

theorem gt_parse_cons (t : Token) (ts : TokenStream) :
    Gt.parse (t :: ts) = if t = ">" ∨ t = "gt" then (.ok ⟨⟩, ts)
      else (.error (ParseError.new "expected >, got something else"), t :: ts) := rfl

theorem lt_parse_nil :
    Lt.parse [] = (.error (ParseError.new "expected <, got nothing"), []) := rfl

theorem lt_parse_cons (t : Token) (ts : TokenStream) :
    Lt.parse (t :: ts) = if t = "<" ∨ t = "lt" then (.ok ⟨⟩, ts)
      else (.error (ParseError.new "expected <, got something else"), t :: ts) := rfl

theorem identifier_parse_nil :
    Identifier.parse [] = (.error (ParseError.new "expected identifier, got nothing"), []) := rfl

theorem identifier_parse_cons (t : Token) (ts : TokenStream) :
    Identifier.parse (t :: ts) =
      if t.data.all (fun c => c.isAlphanum || c == '_') then (.ok ⟨t⟩, ts)
      else (.error (ParseError.new "expected identifier, got something else"), t :: ts) := rfl

/-! ### Backtracking discipline of the primitive matchers -/

theorem comma_err_unchanged (i : TokenStream) (e : ParseError) (out : TokenStream)
    (h : Comma.parse i = (.error e, out)) : out = i := by
  cases i with
  | nil => rw [comma_parse_nil] at h; exact (Prod.ext_iff.mp h.symm).2
  | cons t ts =>
    rw [comma_parse_cons] at h
    split at h
    · exact absurd (Prod.ext_iff.mp h).1 (by simp)
    · exact (Prod.ext_iff.mp h.symm).2

theorem comma_snd_suffix (i : TokenStream) : (Comma.parse i).2 <:+ i := by
  cases i with
  | nil => exact List.suffix_refl _
  | cons t ts =>
    rw [comma_parse_cons]
    split
    · exact List.suffix_cons t ts
    · exact List.suffix_refl _

theorem slash_err_unchanged (i : TokenStream) (e : ParseError) (out : TokenStream)
    (h : Slash.parse i = (.error e, out)) : out = i := by
  cases i with
  | nil => rw [slash_parse_nil] at h; exact (Prod.ext_iff.mp h.symm).2
  | cons t ts =>
    rw [slash_parse_cons] at h
    split at h
    · exact absurd (Prod.ext_iff.mp h).1 (by simp)
    · exact (Prod.ext_iff.mp h.symm).2

theorem slash_snd_suffix (i : TokenStream) : (Slash.parse i).2 <:+ i := by
  cases i with
  | nil => exact List.suffix_refl _
  | cons t ts =>
    rw [slash_parse_cons]
    split
    · exact List.suffix_cons t ts
    · exact List.suffix_refl _

/-! ### The argument-collection loop -/

theorem collectArgs_append (i : TokenStream) : (collectArgs i).1 ++ (collectArgs i).2 = i := by
  induction i with
  | nil => rfl
  | cons t rest ih =>
    simp only [collectArgs]
    split
    · simpa using ih
    · rfl

theorem collectArgs_suffix (i : TokenStream) : (collectArgs i).2 <:+ i :=
  ⟨(collectArgs i).1, collectArgs_append i⟩

/-! ### `ParseSelector` -/

theorem selector_parse_nil :
    ParseSelector.parse [] = (.error (ParseError.new "expected selector"), []) := rfl

theorem selector_parse_cons (t : Token) (ts : TokenStream) :
    ParseSelector.parse (t :: ts) =
      if t = "/" then (.error (ParseError.new "expected selector, got /"), t :: ts)
      else (.ok ⟨t, (collectArgs ts).1⟩, (collectArgs ts).2) := rfl

theorem selector_err_unchanged (i : TokenStream) (e : ParseError) (out : TokenStream)
    (h : ParseSelector.parse i = (.error e, out)) : out = i := by
  cases i with
  | nil => rw [selector_parse_nil] at h; exact (Prod.ext_iff.mp h.symm).2
  | cons t ts =>
    rw [selector_parse_cons] at h
    split at h
    · exact (Prod.ext_iff.mp h.symm).2
    · exact absurd (Prod.ext_iff.mp h).1 (by simp)

theorem selector_snd_suffix (i : TokenStream) : (ParseSelector.parse i).2 <:+ i := by
  cases i with
  | nil => exact List.suffix_refl _
  | cons t ts =>
    rw [selector_parse_cons]
    split
    · exact List.suffix_refl _
    · exact (collectArgs_suffix ts).trans (List.suffix_cons t ts)

theorem selector_progress (i : TokenStream) (v : ParseSelector) (out : TokenStream)
    (h : ParseSelector.parse i = (.ok v, out)) : out.length < i.length := by
  cases i with
  | nil => exact absurd (Prod.ext_iff.mp h).1 (by rw [selector_parse_nil]; simp)
  | cons t ts =>
    rw [selector_parse_cons] at h
    split at h
    · exact absurd (Prod.ext_iff.mp h).1 (by simp)
    · have hout : out = (collectArgs ts).2 := (Prod.ext_iff.mp h.symm).2
      have := (collectArgs_suffix ts).length_le
      simp only [hout, List.length_cons]
      omega

theorem selector_ok_shape (i : TokenStream) (v : ParseSelector) (out : TokenStream)
    (h : ParseSelector.parse i = (.ok v, out)) : i = v.selector :: v.args ++ out := by
  cases i with
  | nil => exact absurd (Prod.ext_iff.mp h).1 (by rw [selector_parse_nil]; simp)
  | cons t ts =>
    rw [selector_parse_cons] at h
    split at h
    · exact absurd (Prod.ext_iff.mp h).1 (by simp)
    · obtain ⟨h1, h2⟩ := Prod.ext_iff.mp h
      have hv : v = ⟨t, (collectArgs ts).1⟩ := by simpa using h1.symm
      have h2' : (collectArgs ts).2 = out := h2
      subst hv
      dsimp only
      rw [← h2', List.cons_append, collectArgs_append]

/-! ### `Punctuated` -/

theorem punctuatedLoop_suffix {α β : Type}
    (pP : TokenStream → Except ParseError β × TokenStream)
    (pT : TokenStream → Except ParseError α × TokenStream)
    (hPsuf : ∀ i, (pP i).2 <:+ i) (hTsuf : ∀ i, (pT i).2 <:+ i) :
    ∀ fuel tt acc, (punctuatedLoop pP pT fuel tt acc).2 <:+ tt := by
  intro fuel
  induction fuel with
  | zero => intro tt acc; exact List.suffix_refl _
  | succ n ih =>
    intro tt acc
    rcases h : pT tt with ⟨r, tt2⟩
    cases r with
    | error e =>
      rw [punctuatedLoop, h]
      have := hTsuf tt
      rw [h] at this
      exact this
    | ok t =>
      rw [punctuatedLoop, h]
      have h3 := hTsuf tt
      rw [h] at h3
      exact (ih (pP tt2).2 (t :: acc)).trans ((hPsuf tt2).trans h3)

theorem punctuatedLoop_spec {α β : Type}
    (pP : TokenStream → Except ParseError β × TokenStream)
    (pT : TokenStream → Except ParseError α × TokenStream)
    (hPsuf : ∀ i, (pP i).2 <:+ i)
    (hTerr : ∀ i e out, pT i = (.error e, out) → out = i)
    (hTprog : ∀ i v out, pT i = (.ok v, out) → out.length < i.length) :
    ∀ fuel tt acc, tt.length < fuel →
      ∃ e, pT ((punctuatedLoop pP pT fuel tt acc).2)
             = (.error e, (punctuatedLoop pP pT fuel tt acc).2) := by
  intro fuel
  induction fuel with
  | zero => intro tt acc h; omega
  | succ n ih =>
    intro tt acc hlen
    rcases h : pT tt with ⟨r, tt2⟩
    cases r with
    | error e =>
      have heq : tt2 = tt := hTerr tt e tt2 h
      subst heq
      rw [punctuatedLoop, h]
      exact ⟨e, h⟩
    | ok t =>
      rw [punctuatedLoop, h]
      apply ih
      have h2 : tt2.length < tt.length := hTprog tt t tt2 h
      have h3 : (pP tt2).2.length ≤ tt2.length := (hPsuf tt2).length_le
      omega

theorem punctuated_parse_ok {α β : Type}
    (pP : TokenStream → Except ParseError β × TokenStream)
    (pT : TokenStream → Except ParseError α × TokenStream)
    (input : TokenStream) :
    ∃ l s, Punctuated.parse pP pT input = (.ok l, s) := ⟨_, _, rfl⟩

theorem punctuated_parse_snd_suffix {α β : Type}
    (pP : TokenStream → Except ParseError β × TokenStream)
    (pT : TokenStream → Except ParseError α × TokenStream)
    (hPsuf : ∀ i, (pP i).2 <:+ i) (hTsuf : ∀ i, (pT i).2 <:+ i)
    (input : TokenStream) : (Punctuated.parse pP pT input).2 <:+ input :=
  (punctuatedLoop_suffix pP pT hPsuf hTsuf _ _ _).trans (hPsuf input)

theorem punctuated_parse_ends_at_failure {α β : Type}
    (pP : TokenStream → Except ParseError β × TokenStream)
    (pT : TokenStream → Except ParseError α × TokenStream)
    (hPsuf : ∀ i, (pP i).2 <:+ i)
    (hTerr : ∀ i e out, pT i = (.error e, out) → out = i)
    (hTprog : ∀ i v out, pT i = (.ok v, out) → out.length < i.length)
    (input : TokenStream) :
    ∃ e, pT ((Punctuated.parse pP pT input).2)
           = (.error e, (Punctuated.parse pP pT input).2) :=
  punctuatedLoop_spec pP pT hPsuf hTerr hTprog _ _ [] (Nat.lt_succ_self _)

/-! ### `ParseSelection` -/

theorem selection_parse_nil :
    ParseSelection.parse [] = (.error (ParseError.new "expected table name"), []) := rfl

theorem selection_parse_cons (t : Token) (ts : TokenStream) (l : List ParseSelector)
    (s : TokenStream)
    (hp : Punctuated.parse Comma.parse ParseSelector.parse ts = (.ok l, s)) :
    ParseSelection.parse (t :: ts) = (.ok ⟨t, l⟩, s) := by
  simp only [ParseSelection.parse, TokenStream.next]
  rw [hp]

theorem selection_err_nil (i : TokenStream) (e : ParseError) (out : TokenStream)
    (h : ParseSelection.parse i = (.error e, out)) : i = [] ∧ out = [] := by
  cases i with
  | nil =>
    rw [selection_parse_nil] at h
    exact ⟨rfl, (Prod.ext_iff.mp h.symm).2⟩
  | cons t ts =>
    obtain ⟨l, s, hp⟩ := punctuated_parse_ok Comma.parse ParseSelector.parse ts
    rw [selection_parse_cons t ts l s hp] at h
    exact absurd (Prod.ext_iff.mp h).1 (by simp)

theorem selection_err_unchanged (i : TokenStream) (e : ParseError) (out : TokenStream)
    (h : ParseSelection.parse i = (.error e, out)) : out = i := by
  obtain ⟨h1, h2⟩ := selection_err_nil i e out h
  rw [h1, h2]

theorem selection_snd_suffix (i : TokenStream) : (ParseSelection.parse i).2 <:+ i := by
  cases i with
  | nil => exact List.suffix_refl _
  | cons t ts =>
    obtain ⟨l, s, hp⟩ := punctuated_parse_ok Comma.parse ParseSelector.parse ts
    rw [selection_parse_cons t ts l s hp]
    have := punctuated_parse_snd_suffix Comma.parse ParseSelector.parse
      comma_snd_suffix selector_snd_suffix ts
    rw [hp] at this
    exact this.trans (List.suffix_cons t ts)

theorem selection_progress (i : TokenStream) (v : ParseSelection) (out : TokenStream)
    (h : ParseSelection.parse i = (.ok v, out)) : out.length < i.length := by
  cases i with
  | nil => exact absurd (Prod.ext_iff.mp h).1 (by rw [selection_parse_nil]; simp)
  | cons t ts =>
    obtain ⟨l, s, hp⟩ := punctuated_parse_ok Comma.parse ParseSelector.parse ts
    rw [selection_parse_cons t ts l s hp] at h
    have hout : out = s := (Prod.ext_iff.mp h.symm).2
    have hs : s <:+ ts := by
      have := punctuated_parse_snd_suffix Comma.parse ParseSelector.parse
        comma_snd_suffix selector_snd_suffix ts
      rw [hp] at this
      exact this
    have := hs.length_le
    simp only [hout, List.length_cons]
    omega

theorem selection_ok_shape (i : TokenStream) (v : ParseSelection) (out : TokenStream)
    (h : ParseSelection.parse i = (.ok v, out)) :
    ∃ rest, i = v.table :: rest ∧
      Punctuated.parse Comma.parse ParseSelector.parse rest = (.ok v.selectors, out) := by
  cases i with
  | nil => exact absurd (Prod.ext_iff.mp h).1 (by rw [selection_parse_nil]; simp)
  | cons t ts =>
    obtain ⟨l, s, hp⟩ := punctuated_parse_ok Comma.parse ParseSelector.parse ts
    rw [selection_parse_cons t ts l s hp] at h
    obtain ⟨h1, h2⟩ := Prod.ext_iff.mp h
    have hv : v = ⟨t, l⟩ := by simpa using h1.symm
    have h2' : s = out := h2
    subst hv
    exact ⟨ts, rfl, by rw [hp, h2']⟩

/-! ### Tokenizer lemmas -/

/-- Every token `lexChars` emits is non-empty, draws its characters from the
pending run or the remaining input, and is either a single delimiter
character or a delimiter-free run. -/
theorem lexChars_shape (s : List Char) : ∀ (pending : List Char),
    (∀ c ∈ pending, isDelimiter c = false) →
    ∀ t ∈ lexChars s pending,
      t.data ≠ [] ∧ (∀ c ∈ t.data, c ∈ pending ∨ c ∈ s) ∧
      ((∃ c, isDelimiter c = true ∧ t.data = [c]) ∨ ∀ c ∈ t.data, isDelimiter c = false) := by
  induction s with
  | nil =>
    intro pending hp t ht
    simp only [lexChars] at ht
    split at ht
    · simp at ht
    · next hne =>
      simp only [List.mem_singleton] at ht
      subst ht
      refine ⟨?_, ?_, Or.inr ?_⟩
      · simpa [List.reverse_eq_nil_iff] using (by simpa [List.isEmpty_iff] using hne)
      · intro c hc
        exact Or.inl (List.mem_reverse.mp hc)
      · intro c hc
        exact hp c (List.mem_reverse.mp hc)
  | cons c0 rest ih =>
    intro pending hp t ht
    simp only [lexChars] at ht
    split at ht
    · next hdel =>
      rw [List.mem_append] at ht
      rcases ht with hflush | htl
      · have hne : ¬pending.isEmpty := by
          intro hempty
          rw [if_pos hempty] at hflush
          simp at hflush
        rw [if_neg hne] at hflush
        simp only [List.mem_singleton] at hflush
        subst hflush
        refine ⟨?_, ?_, Or.inr ?_⟩
        · simpa [List.reverse_eq_nil_iff] using (by simpa [List.isEmpty_iff] using hne)
        · intro c hc
          exact Or.inl (List.mem_reverse.mp hc)
        · intro c hc
          exact hp c (List.mem_reverse.mp hc)
      · rw [List.mem_cons] at htl
        rcases htl with heq | hrec
        · subst heq
          refine ⟨by simp, ?_, Or.inl ⟨c0, hdel, rfl⟩⟩
          intro c hc
          simp only [List.mem_singleton] at hc
          subst hc
          exact Or.inr (List.mem_cons_self _ _)
        · obtain ⟨h1, h2, h3⟩ := ih [] (by simp) t hrec
          refine ⟨h1, ?_, h3⟩
          intro c hc
          rcases h2 c hc with hin | hin
          · simp at hin
          · exact Or.inr (List.mem_cons_of_mem c0 hin)
    · next hdel =>
      obtain ⟨h1, h2, h3⟩ := ih (c0 :: pending)
        (by
          intro c hc
          rw [List.mem_cons] at hc
          rcases hc with hq | hq
          · subst hq; simpa using hdel
          · exact hp c hq)
        t ht
      refine ⟨h1, ?_, h3⟩
      intro c hc
      rcases h2 c hc with hin | hin
      · rw [List.mem_cons] at hin
        rcases hin with hq | hq
        · subst hq; exact Or.inr (List.mem_cons_self c rest)
        · exact Or.inl hq
      · exact Or.inr (List.mem_cons_of_mem c0 hin)

/-- On delimiter-free input, `lexChars` emits the pending run together with
the whole input as one token (or nothing when both are empty). -/
theorem lexChars_no_delims (s : List Char) : ∀ (pending : List Char),
    (∀ c ∈ s, isDelimiter c = false) →
    lexChars s pending =
      if pending.reverse ++ s = [] then [] else [String.mk (pending.reverse ++ s)] := by
  induction s with
  | nil =>
    intro pending _
    simp only [lexChars, List.append_nil]
    by_cases hp : pending.isEmpty
    · rw [if_pos hp, if_pos (by simpa [List.reverse_eq_nil_iff, List.isEmpty_iff] using hp)]
    · rw [if_neg hp, if_neg (by simpa [List.reverse_eq_nil_iff, List.isEmpty_iff] using hp)]
  | cons c0 rest ih =>
    intro pending hs
    have hc0 : isDelimiter c0 = false := hs c0 (List.mem_cons_self c0 rest)
    simp only [lexChars, hc0]
    rw [if_neg (by simp)]
    rw [ih (c0 :: pending) (fun c hc => hs c (List.mem_cons_of_mem c0 hc))]
    have harr : (c0 :: pending).reverse ++ rest = pending.reverse ++ c0 :: rest := by
      simp
    rw [harr]

/-- Re-tokenizing a token already emitted by `lexChars` reproduces exactly
that token. -/
theorem lexChars_token_fixed (s : List Char) (t : String)
    (ht : t ∈ lexChars s []) : lexChars t.data [] = [t] := by
  obtain ⟨h1, _, h3⟩ := lexChars_shape s [] (by simp) t ht
  obtain ⟨d⟩ := t
  rcases h3 with ⟨c, hdel, hdata⟩ | hfree
  · have hd : d = [c] := hdata
    subst hd
    simp [lexChars, hdel]
  · rw [lexChars_no_delims d [] hfree]
    rw [if_neg (by simpa using h1)]
    rfl

/-- `lex` distributes over concatenation of argument lists. -/
theorem lex_append (a b : List String) : lex (a ++ b) = lex a ++ lex b := by
  induction a with
  | nil => rfl
  | cons s rest ih =>
    show lexChars s.data [] ++ lex (rest ++ b) = lexChars s.data [] ++ lex rest ++ lex b
    rw [ih, List.append_assoc]

/-- `lex` leaves a list of already-emitted tokens unchanged. -/
theorem lex_fixed_of_tokens (l : List String)
    (h : ∀ t ∈ l, lexChars t.data [] = [t]) : lex l = l := by
  induction l with
  | nil => rfl
  | cons t rest ih =>
    simp only [lex]
    rw [h t (List.mem_cons_self t rest), ih (fun u hu => h u (List.mem_cons_of_mem t hu))]
    rfl

/-- Membership in `lex`: every emitted token comes from tokenizing one of the
argument strings. -/
theorem mem_lex (args : List String) (t : String) (ht : t ∈ lex args) :
    ∃ s ∈ args, t ∈ lexChars s.data [] := by
  induction args with
  | nil => simp [lex] at ht
  | cons s rest ih =>
    simp only [lex, List.mem_append] at ht
    rcases ht with h | h
    · exact ⟨s, List.mem_cons_self s rest, h⟩
    · obtain ⟨u, hu, htu⟩ := ih h
      exact ⟨u, List.mem_cons_of_mem s hu, htu⟩

/-! ### Remaining matcher success/failure lemmas -/

theorem comma_ok_shape (i : TokenStream) (v : Comma) (out : TokenStream)
    (h : Comma.parse i = (.ok v, out)) : i = "," :: out := by
  cases i with
  | nil => exact absurd (Prod.ext_iff.mp h).1 (by rw [comma_parse_nil]; simp)
  | cons t ts =>
    rw [comma_parse_cons] at h
    split at h
    · next ht =>
      have hts : ts = out := (Prod.ext_iff.mp h).2
      rw [ht, hts]
    · exact absurd (Prod.ext_iff.mp h).1 (by simp)

theorem slash_ok_shape (i : TokenStream) (v : Slash) (out : TokenStream)
    (h : Slash.parse i = (.ok v, out)) : i = "/" :: out := by
  cases i with
  | nil => exact absurd (Prod.ext_iff.mp h).1 (by rw [slash_parse_nil]; simp)
  | cons t ts =>
    rw [slash_parse_cons] at h
    split at h
    · next ht =>
      have hts : ts = out := (Prod.ext_iff.mp h).2
      rw [ht, hts]
    · exact absurd (Prod.ext_iff.mp h).1 (by simp)

theorem period_err_unchanged (i : TokenStream) (e : ParseError) (out : TokenStream)
    (h : Period.parse i = (.error e, out)) : out = i := by
  cases i with
  | nil => rw [period_parse_nil] at h; exact (Prod.ext_iff.mp h.symm).2
  | cons t ts =>
    rw [period_parse_cons] at h
    split at h
    · exact absurd (Prod.ext_iff.mp h).1 (by simp)
    · exact (Prod.ext_iff.mp h.symm).2

theorem period_ok_shape (i : TokenStream) (v : Period) (out : TokenStream)
    (h : Period.parse i = (.ok v, out)) : i = "." :: out := by
  cases i with
  | nil => exact absurd (Prod.ext_iff.mp h).1 (by rw [period_parse_nil]; simp)
  | cons t ts =>
    rw [period_parse_cons] at h
    split at h
    · next ht =>
      have hts : ts = out := (Prod.ext_iff.mp h).2
      rw [ht, hts]
    · exact absurd (Prod.ext_iff.mp h).1 (by simp)

theorem gt_err_unchanged (i : TokenStream) (e : ParseError) (out : TokenStream)
    (h : Gt.parse i = (.error e, out)) : out = i := by
  cases i with
  | nil => rw [gt_parse_nil] at h; exact (Prod.ext_iff.mp h.symm).2
  | cons t ts =>
    rw [gt_parse_cons] at h
    split at h
    · exact absurd (Prod.ext_iff.mp h).1 (by simp)
    · exact (Prod.ext_iff.mp h.symm).2

theorem gt_ok_shape (i : TokenStream) (v : Gt) (out : TokenStream)
    (h : Gt.parse i = (.ok v, out)) : i = ">" :: out ∨ i = "gt" :: out := by
  cases i with
  | nil => exact absurd (Prod.ext_iff.mp h).1 (by rw [gt_parse_nil]; simp)
  | cons t ts =>
    rw [gt_parse_cons] at h
    split at h
    · next ht =>
      have hts : ts = out := (Prod.ext_iff.mp h).2
      rcases ht with ht | ht
      · exact Or.inl (by rw [ht, hts])
      · exact Or.inr (by rw [ht, hts])
    · exact absurd (Prod.ext_iff.mp h).1 (by simp)

theorem lt_err_unchanged (i : TokenStream) (e : ParseError) (out : TokenStream)
    (h : Lt.parse i = (.error e, out)) : out = i := by
  cases i with
  | nil => rw [lt_parse_nil] at h; exact (Prod.ext_iff.mp h.symm).2
  | cons t ts =>
    rw [lt_parse_cons] at h
    split at h
    · exact absurd (Prod.ext_iff.mp h).1 (by simp)
    · exact (Prod.ext_iff.mp h.symm).2

theorem lt_ok_shape (i : TokenStream) (v : Lt) (out : TokenStream)
    (h : Lt.parse i = (.ok v, out)) : i = "<" :: out ∨ i = "lt" :: out := by
  cases i with
  | nil => exact absurd (Prod.ext_iff.mp h).1 (by rw [lt_parse_nil]; simp)
  | cons t ts =>
    rw [lt_parse_cons] at h
    split at h
    · next ht =>
      have hts : ts = out := (Prod.ext_iff.mp h).2
      rcases ht with ht | ht
      · exact Or.inl (by rw [ht, hts])
      · exact Or.inr (by rw [ht, hts])
    · exact absurd (Prod.ext_iff.mp h).1 (by simp)

theorem identifier_err_unchanged (i : TokenStream) (e : ParseError) (out : TokenStream)
    (h : Identifier.parse i = (.error e, out)) : out = i := by
  cases i with
  | nil => rw [identifier_parse_nil] at h; exact (Prod.ext_iff.mp h.symm).2
  | cons t ts =>
    rw [identifier_parse_cons] at h
    split at h
    · exact absurd (Prod.ext_iff.mp h).1 (by simp)
    · exact (Prod.ext_iff.mp h.symm).2

theorem identifier_ok_shape (i : TokenStream) (v : Identifier) (out : TokenStream)
    (h : Identifier.parse i = (.ok v, out)) : i = v.value :: out := by
  cases i with
  | nil => exact absurd (Prod.ext_iff.mp h).1 (by rw [identifier_parse_nil]; simp)
  | cons t ts =>
    rw [identifier_parse_cons] at h
    split at h
    · have hv : v = ⟨t⟩ := by simpa using (Prod.ext_iff.mp h).1.symm
      have hts : ts = out := (Prod.ext_iff.mp h).2
      rw [hv, hts]
    · exact absurd (Prod.ext_iff.mp h).1 (by simp)

/-! ## Claim theorems -/

/-- C1: the claim (and the spec's stated required behavior) is that a
malformed count argument of `rand`/`latest`/`limit` is reported as a
structured `ParseError` through the common failure channel.  The code instead
calls `args[0].parse().unwrap()`, which panics and aborts the process: at the
raw selector with keyword `rand` and argument `abc`, the conversion hits the
panic channel (embedded as `none`) and produces no `ParseError` value. -/
theorem rand_malformed_count_panics :
    Selector.fromParse ⟨"rand", ["abc"]⟩ = none := rfl

/-- C2: every fallible parse unit — the `Comma`, `Period`, `Slash`, `Gt`,
`Lt` and `Identifier` matchers, `ParseSelector` and `ParseSelection` — leaves
the caller's stream exactly as it was when it fails, and on success leaves
the stream advanced exactly past the tokens it recognized. -/
theorem parse_units_backtrack (input : TokenStream) :
    (∀ e out, Comma.parse input = (.error e, out) → out = input) ∧
    (∀ v out, Comma.parse input = (.ok v, out) → input = "," :: out) ∧
    (∀ e out, Period.parse input = (.error e, out) → out = input) ∧
    (∀ v out, Period.parse input = (.ok v, out) → input = "." :: out) ∧
    (∀ e out, Slash.parse input = (.error e, out) → out = input) ∧
    (∀ v out, Slash.parse input = (.ok v, out) → input = "/" :: out) ∧
    (∀ e out, Gt.parse input = (.error e, out) → out = input) ∧
    (∀ v out, Gt.parse input = (.ok v, out) → input = ">" :: out ∨ input = "gt" :: out) ∧
    (∀ e out, Lt.parse input = (.error e, out) → out = input) ∧
    (∀ v out, Lt.parse input = (.ok v, out) → input = "<" :: out ∨ input = "lt" :: out) ∧
    (∀ e out, Identifier.parse input = (.error e, out) → out = input) ∧
    (∀ v out, Identifier.parse input = (.ok v, out) → input = v.value :: out) ∧
    (∀ e out, ParseSelector.parse input = (.error e, out) → out = input) ∧
    (∀ v out, ParseSelector.parse input = (.ok v, out) →
        input = v.selector :: v.args ++ out) ∧
    (∀ e out, ParseSelection.parse input = (.error e, out) → out = input) ∧
    (∀ v out, ParseSelection.parse input = (.ok v, out) →
        ∃ rest, input = v.table :: rest ∧
          Punctuated.parse Comma.parse ParseSelector.parse rest = (.ok v.selectors, out)) :=
  ⟨fun e out h => comma_err_unchanged input e out h,
   fun v out h => comma_ok_shape input v out h,
   fun e out h => period_err_unchanged input e out h,
   fun v out h => period_ok_shape input v out h,
   fun e out h => slash_err_unchanged input e out h,
   fun v out h => slash_ok_shape input v out h,
   fun e out h => gt_err_unchanged input e out h,
   fun v out h => gt_ok_shape input v out h,
   fun e out h => lt_err_unchanged input e out h,
   fun v out h => lt_ok_shape input v out h,
   fun e out h => identifier_err_unchanged input e out h,
   fun v out h => identifier_ok_shape input v out h,
   fun e out h => selector_err_unchanged input e out h,
   fun v out h => selector_ok_shape input v out h,
   fun e out h => selection_err_unchanged input e out h,
   fun v out h => selection_ok_shape input v out h⟩

theorem parse_units_backtrack_witness :
    (Comma.parse ["x"]).2 = ["x"] ∧
      (["rand", "5", "/"] : TokenStream) = "rand" :: ["5"] ++ ["/"] :=
  ⟨(parse_units_backtrack ["x"]).1
      (ParseError.new "expected comma, got something else") ["x"] rfl,
   (parse_units_backtrack ["rand", "5", "/"]).2.2.2.2.2.2.2.2.2.2.2.2.2.1
      ⟨"rand", ["5"]⟩ ["/"] rfl⟩

/-- C3: `Punctuated.parse`, for delimiter and item parsers that uphold the
grammar's backtracking discipline (no consumption on failure, suffix-only
streams, item progress on success), always returns `Ok`, with result length
at least zero; afterwards the stream sits exactly where the failed final item
attempt began — the failed attempt consumed nothing. -/
theorem punctuated_never_fails {α β : Type}
    (pP : TokenStream → Except ParseError β × TokenStream)
    (pT : TokenStream → Except ParseError α × TokenStream)
    (hPsuf : ∀ i, (pP i).2 <:+ i)
    (hTerr : ∀ i e out, pT i = (.error e, out) → out = i)
    (hTsuf : ∀ i, (pT i).2 <:+ i)
    (hTprog : ∀ i v out, pT i = (.ok v, out) → out.length < i.length)
    (input : TokenStream) :
    ∃ l, (Punctuated.parse pP pT input).1 = .ok l ∧ 0 ≤ l.length ∧
      (Punctuated.parse pP pT input).2 <:+ input ∧
      ∃ e, pT ((Punctuated.parse pP pT input).2)
             = (.error e, (Punctuated.parse pP pT input).2) :=
  ⟨_, rfl, Nat.zero_le _, punctuated_parse_snd_suffix pP pT hPsuf hTsuf input,
    punctuated_parse_ends_at_failure pP pT hPsuf hTerr hTprog input⟩

theorem punctuated_never_fails_witness :
    (Punctuated.parse Comma.parse ParseSelector.parse ["a", ",", "b"]).2
      <:+ ["a", ",", "b"] := by
  obtain ⟨l, -, -, hsuf, -⟩ := punctuated_never_fails Comma.parse ParseSelector.parse
    comma_snd_suffix selector_err_unchanged selector_snd_suffix selector_progress
    ["a", ",", "b"]
  exact hsuf

/-- C4: for every token sequence, the outermost selection-list parse
`Punctuated::<Slash, ParseSelection>::parse` returns `Ok` and consumes the
entire sequence: no input produces a failure escaping the outermost parse. -/
theorem outermost_parse_total (tokens : TokenStream) :
    ∃ l, Punctuated.parse Slash.parse ParseSelection.parse tokens = (.ok l, []) := by
  obtain ⟨e, hend⟩ := punctuated_parse_ends_at_failure Slash.parse ParseSelection.parse
    slash_snd_suffix selection_err_unchanged selection_progress tokens
  obtain ⟨l, s, hp⟩ := punctuated_parse_ok Slash.parse ParseSelection.parse tokens
  refine ⟨l, ?_⟩
  rw [hp] at hend ⊢
  have hs : s = [] := (selection_err_nil s e s hend).1
  rw [hs]

/-- C5: the raw-to-typed selector mapping agrees with the keyword table
whenever the numeric arguments are well-formed: no arguments gives
`id(keyword)`; `rand`/`latest`/`limit` with first argument parsing as `N`
give `rand N`/`latest N`/`limit N`; `sort` gives `sort(arg0, descending)`
with descending exactly when `arg1 = "desc"` and ascending when `arg1` is
absent; any other keyword with at least one argument gives `expr`. -/
theorem selector_keyword_mapping (kw : Token) (args : List Token) :
    (args = [] → Selector.fromParse ⟨kw, args⟩ = some (Selector.id kw)) ∧
    (∀ a0 rest n, args = a0 :: rest → kw = "rand" → parseUsize a0 = some n →
        Selector.fromParse ⟨kw, args⟩ = some (Selector.rand n)) ∧
    (∀ a0 rest n, args = a0 :: rest → kw = "latest" → parseUsize a0 = some n →
        Selector.fromParse ⟨kw, args⟩ = some (Selector.latest n)) ∧
    (∀ a0 rest n, args = a0 :: rest → kw = "limit" → parseUsize a0 = some n →
        Selector.fromParse ⟨kw, args⟩ = some (Selector.limit n)) ∧
    (∀ a0, args = [a0] → kw = "sort" →
        Selector.fromParse ⟨kw, args⟩ = some (Selector.sort a0 false)) ∧
    (∀ a0 a1 rest, args = a0 :: a1 :: rest → kw = "sort" →
        Selector.fromParse ⟨kw, args⟩ = some (Selector.sort a0 (a1 == "desc"))) ∧
    (∀ a0 rest, args = a0 :: rest →
        kw ≠ "rand" → kw ≠ "latest" → kw ≠ "limit" → kw ≠ "sort" →
        Selector.fromParse ⟨kw, args⟩ = some Selector.expr) := by
  refine ⟨?_, ?_, ?_, ?_, ?_, ?_, ?_⟩
  · intro h; subst h; rfl
  · intro a0 rest n h hk hn
    subst h; subst hk
    simp [Selector.fromParse, hn]
  · intro a0 rest n h hk hn
    subst h; subst hk
    simp [Selector.fromParse, hn]
  · intro a0 rest n h hk hn
    subst h; subst hk
    simp [Selector.fromParse, hn]
  · intro a0 h hk
    subst h; subst hk
    simp [Selector.fromParse]
  · intro a0 a1 rest h hk
    subst h; subst hk
    simp [Selector.fromParse]
  · intro a0 rest h h1 h2 h3 h4
    subst h
    simp [Selector.fromParse, h1, h2, h3, h4]

theorem selector_keyword_mapping_witness :
    parseUsize "1000" = some 1000 ∧
      Selector.fromParse ⟨"latest", ["1000"]⟩ = some (Selector.latest 1000) :=
  ⟨by decide,
   (selector_keyword_mapping "latest" ["1000"]).2.2.1 "1000" [] 1000 rfl rfl (by decide)⟩

/-- C6: tokenizing the single argument string `foo(bar,baz)` yields exactly
the six tokens `foo`, `(`, `bar`, `,`, `baz`, `)` in that order. -/
theorem lex_example_tokens :
    lex ["foo(bar,baz)"] = ["foo", "(", "bar", ",", "baz", ")"] := by decide

/-- C7 counterexample: the claim that no emitted token ever contains a
whitespace character fails for any argument string that itself contains
whitespace (reachable, e.g., through shell quoting): tokenizing the single
argument `a b` emits the token `a b`, which contains the whitespace
character `' '`. -/
theorem lex_whitespace_counterexample :
    lex ["a b"] = ["a b"] ∧ ' ' ∈ ("a b").data ∧ Char.isWhitespace ' ' = true :=
  ⟨by decide, by decide, by decide⟩

/-- C7 (amended): every token the tokenizer emits is non-empty; and whenever
no input argument string contains a whitespace character, no emitted token
contains a whitespace character. -/
theorem lex_tokens_nonempty_no_whitespace (args : List String) (t : String)
    (ht : t ∈ lex args) :
    t ≠ "" ∧
      ((∀ s ∈ args, ∀ c ∈ s.data, c.isWhitespace = false) →
        ∀ c ∈ t.data, c.isWhitespace = false) := by
  obtain ⟨s, hs, hts⟩ := mem_lex args t ht
  obtain ⟨h1, h2, -⟩ := lexChars_shape s.data [] (by simp) t hts
  constructor
  · intro he
    subst he
    exact h1 rfl
  · intro hw c hc
    rcases h2 c hc with hin | hin
    · simp at hin
    · exact hw s hs c hin

theorem lex_tokens_nonempty_no_whitespace_witness :
    ("foo" : String) ≠ "" ∧ Char.isWhitespace 'f' = false :=
  ⟨(lex_tokens_nonempty_no_whitespace ["foo(bar"] "foo" (by decide)).1,
   (lex_tokens_nonempty_no_whitespace ["foo(bar"] "foo" (by decide)).2
      (by decide) 'f' (by decide)⟩

/-- C8: tokenization is idempotent — feeding the emitted token sequence back
into the tokenizer, each token as its own argument string, reproduces the
identical token sequence. -/
theorem lex_idempotent (args : List String) : lex (lex args) = lex args := by
  apply lex_fixed_of_tokens
  intro t ht
  obtain ⟨s, -, hts⟩ := mem_lex args t ht
  exact lexChars_token_fixed s.data t hts

/-- C9: parsing the shell-split input `org 123 / deduction latest 1000`
yields exactly two selections in order — the first with table `org`, the
second with table `deduction` and exactly one selector, `latest 1000`. -/
theorem pipeline_example :
    parseSelections ["org", "123", "/", "deduction", "latest", "1000"]
        = .ok [⟨"org", [⟨"123", []⟩]⟩, ⟨"deduction", [⟨"latest", ["1000"]⟩]⟩] ∧
      toSelections [⟨"org", [⟨"123", []⟩]⟩, ⟨"deduction", [⟨"latest", ["1000"]⟩]⟩]
        = some [⟨"org", [Selector.id "123"]⟩, ⟨"deduction", [Selector.latest 1000]⟩] :=
  ⟨rfl, rfl⟩

/-- C10: `ParseSelector.parse` fails exactly when the stream is empty or its
next token is `/`; any other next token — punctuation included — is accepted
as the selector keyword with no identifier-shape check. -/
theorem selector_parse_failure_characterization (input : TokenStream) :
    ((∃ e out, ParseSelector.parse input = (.error e, out)) ↔
      input = [] ∨ input.head? = some "/") ∧
    (∀ v out, ParseSelector.parse input = (.ok v, out) →
      input.head? = some v.selector) := by
  constructor
  · constructor
    · rintro ⟨e, out, h⟩
      cases input with
      | nil => exact Or.inl rfl
      | cons t ts =>
        rw [selector_parse_cons] at h
        split at h
        · next ht => exact Or.inr (by rw [ht]; rfl)
        · exact absurd (Prod.ext_iff.mp h).1 (by simp)
    · intro h
      rcases h with h | h
      · subst h; exact ⟨_, _, selector_parse_nil⟩
      · cases input with
        | nil => simp at h
        | cons t ts =>
          have ht : t = "/" := by simpa using h
          subst ht
          exact ⟨_, _, by rw [selector_parse_cons, if_pos rfl]⟩
  · intro v out h
    cases input with
    | nil => exact absurd (Prod.ext_iff.mp h).1 (by rw [selector_parse_nil]; simp)
    | cons t ts =>
      rw [selector_parse_cons] at h
      split at h
      · exact absurd (Prod.ext_iff.mp h).1 (by simp)
      · have hv : v = ⟨t, (collectArgs ts).1⟩ := by
          simpa using (Prod.ext_iff.mp h).1.symm
        subst hv
        rfl

theorem selector_parse_failure_characterization_witness :
    ParseSelector.parse [","] = (.ok ⟨",", []⟩, []) ∧
      ([","] : TokenStream).head? = some "," :=
  ⟨rfl, (selector_parse_failure_characterization [","]).2 ⟨",", []⟩ [] rfl⟩

end Seed
